import Mathlib

/-!
Shallow embedding of the xtrack combined-function dipole transport map
(`src/xtrack/beam_elements/elements_src/combinedfunctiondipole.h`) and of the
particle guards (`src/xtrack/headers/checks.h`), together with theorems
settling the specification claims about them.

All machine doubles are modelled as real numbers; every definition follows the
C source expression for expression, with the source's branch structure
(`NONZERO(X)` is `X < 0 || X > 0`) kept intact.
-/

namespace Xt

open Real Filter Topology Set

/-- Element data of `ThickCombinedFunctionDipole` (fields read at the top of
`ThickCombinedFunctionDipole_track_local_particle`). -/
structure ThickCombinedFunctionDipoleData where
  length : ℝ
  k0 : ℝ
  k1 : ℝ
  h : ℝ

/-- One particle's slice of the particle ensemble: the fields the kernel and
the guards read or write. `state` and `at_turn` are the lifecycle fields. -/
structure LocalParticle where
  x : ℝ
  px : ℝ
  y : ℝ
  py : ℝ
  zeta : ℝ
  s : ℝ
  delta : ℝ
  ptau : ℝ
  beta0 : ℝ
  rvv : ℝ
  state : ℤ
  at_turn : ℤ

/-- The `NONZERO(X)` macro: `((X) < 0.0 || (X) > 0.0)`. -/
def NONZERO (x : ℝ) : Prop := x < 0 ∨ x > 0

/-- Sine-like transport coefficient `S` computed per axis by the three-way
sign branch on `K` in the kernel (lines 42-70 of the source). -/
noncomputable def Sfun (K L : ℝ) : ℝ :=
  if K > 0 then Real.sin (Real.sqrt K * L) / Real.sqrt K
  else if K < 0 then Real.sinh (Real.sqrt (-K) * L) / Real.sqrt (-K)
  else L

/-- Cosine-like transport coefficient `C` computed per axis by the three-way
sign branch on `K` in the kernel (lines 42-70 of the source). -/
noncomputable def Cfun (K L : ℝ) : ℝ :=
  if K > 0 then Real.cos (Real.sqrt K * L)
  else if K < 0 then Real.cosh (Real.sqrt (-K) * L)
  else 1

/-- `beti = 1.0 / (rvv * beta0)`. -/
noncomputable def beti (p : LocalParticle) : ℝ := 1 / (p.rvv * p.beta0)

/-- `delta_plus_1 = delta + 1`. -/
noncomputable def delta_plus_1 (p : LocalParticle) : ℝ := p.delta + 1

/-- `bet = delta_plus_1 / (beti + pt)` where `pt` is the particle's `ptau`. -/
noncomputable def bet (p : LocalParticle) : ℝ :=
  delta_plus_1 p / (beti p + p.ptau)

/-- `k0 = k0_ / delta_plus_1` (momentum-scaled dipole strength). -/
noncomputable def k0_eff (el : ThickCombinedFunctionDipoleData)
    (p : LocalParticle) : ℝ := el.k0 / delta_plus_1 p

/-- `k1 = k1_ / delta_plus_1` (momentum-scaled quadrupole strength). -/
noncomputable def k1_eff (el : ThickCombinedFunctionDipoleData)
    (p : LocalParticle) : ℝ := el.k1 / delta_plus_1 p

/-- `Kx = k0 * h + k1`. -/
noncomputable def Kx (el : ThickCombinedFunctionDipoleData)
    (p : LocalParticle) : ℝ := k0_eff el p * el.h + k1_eff el p

/-- `Ky = -k1`. -/
noncomputable def Ky (el : ThickCombinedFunctionDipoleData)
    (p : LocalParticle) : ℝ := -k1_eff el p

/-- `xp = px / delta_plus_1`. -/
noncomputable def xp (p : LocalParticle) : ℝ := p.px / delta_plus_1 p

/-- `yp = py / delta_plus_1`. -/
noncomputable def yp (p : LocalParticle) : ℝ := p.py / delta_plus_1 p

/-- Horizontal drive term `A = -Kx * x - k0 + h`. -/
noncomputable def A (el : ThickCombinedFunctionDipoleData)
    (p : LocalParticle) : ℝ := -Kx el p * p.x - k0_eff el p + el.h

/-- Horizontal drive term `B = xp`. -/
noncomputable def B (p : LocalParticle) : ℝ := xp p

/-- Vertical drive term `C = -Ky * y`. -/
noncomputable def C (el : ThickCombinedFunctionDipoleData)
    (p : LocalParticle) : ℝ := -Ky el p * p.y

/-- Vertical drive term `D = yp`. -/
noncomputable def D (p : LocalParticle) : ℝ := yp p

/-- `Sx` at this element and particle. -/
noncomputable def Sx (el : ThickCombinedFunctionDipoleData)
    (p : LocalParticle) : ℝ := Sfun (Kx el p) el.length

/-- `Cx` at this element and particle. -/
noncomputable def Cx (el : ThickCombinedFunctionDipoleData)
    (p : LocalParticle) : ℝ := Cfun (Kx el p) el.length

/-- `Sy` at this element and particle. -/
noncomputable def Sy (el : ThickCombinedFunctionDipoleData)
    (p : LocalParticle) : ℝ := Sfun (Ky el p) el.length

/-- `Cy` at this element and particle. -/
noncomputable def Cy (el : ThickCombinedFunctionDipoleData)
    (p : LocalParticle) : ℝ := Cfun (Ky el p) el.length

/-- New horizontal position: `x_ = x * Cx + xp * Sx`, then the curvature
correction added in the `NONZERO(Kx)` branch or its degenerate form. -/
noncomputable def x_new (el : ThickCombinedFunctionDipoleData)
    (p : LocalParticle) : ℝ :=
  if Kx el p < 0 ∨ Kx el p > 0 then
    p.x * Cx el p + xp p * Sx el p + (k0_eff el p - el.h) * (Cx el p - 1) / Kx el p
  else
    p.x * Cx el p + xp p * Sx el p - (k0_eff el p - el.h) * 0.5 * el.length ^ 2

/-- New vertical position: `y_ = y * Cy + yp * Sy`. -/
noncomputable def y_new (el : ThickCombinedFunctionDipoleData)
    (p : LocalParticle) : ℝ := p.y * Cy el p + yp p * Sy el p

/-- New horizontal momentum: `px_ = (A * Sx + B * Cx) * delta_plus_1`. -/
noncomputable def px_new (el : ThickCombinedFunctionDipoleData)
    (p : LocalParticle) : ℝ := (A el p * Sx el p + B p * Cx el p) * delta_plus_1 p

/-- New vertical momentum: `py_ = (C * Sy + D * Cy) * delta_plus_1`. -/
noncomputable def py_new (el : ThickCombinedFunctionDipoleData)
    (p : LocalParticle) : ℝ := (C el p * Sy el p + D p * Cy el p) * delta_plus_1 p

/-- Total path length `length_` traveled by the particle (lines 92-126 of the
source): `length` plus the horizontal curvature and cross terms (branching on
`NONZERO(Kx)`) plus the vertical cross term (branching on `NONZERO(Ky)`). -/
noncomputable def pathLength (el : ThickCombinedFunctionDipoleData)
    (p : LocalParticle) : ℝ :=
  (if Kx el p < 0 ∨ Kx el p > 0 then
    el.length
      - el.h * ((Cx el p - 1) * xp p + Sx el p * A el p
          + el.length * (k0_eff el p - el.h)) / Kx el p
      + 0.5 * (-(A el p ^ 2 * Cx el p * Sx el p) / (2 * Kx el p)
          + (B p ^ 2 * Cx el p * Sx el p) / 2
          + (A el p ^ 2 * el.length) / (2 * Kx el p)
          + (B p ^ 2 * el.length) / 2
          - (A el p * B p * Cx el p ^ 2) / Kx el p
          + (A el p * B p) / Kx el p)
  else
    el.length
      + el.h * el.length * (3 * el.length * xp p + 6 * p.x
          - (k0_eff el p - el.h) * el.length ^ 2) / 6
      + 0.5 * B p ^ 2 * el.length)
  + (if Ky el p < 0 ∨ Ky el p > 0 then
    0.5 * (-(C el p ^ 2 * Cy el p * Sy el p) / (2 * Ky el p)
        + (D p ^ 2 * Cy el p * Sy el p) / 2
        + (C el p ^ 2 * el.length) / (2 * Ky el p)
        + (D p ^ 2 * el.length) / 2
        - (C el p * D p * Cy el p ^ 2) / Ky el p
        + (C el p * D p) / Ky el p)
  else
    0.5 * D p ^ 2 * el.length)

/-- `z_ = length * beti - length_ / bet`. -/
noncomputable def z_ (el : ThickCombinedFunctionDipoleData)
    (p : LocalParticle) : ℝ := el.length * beti p - pathLength el p / bet p

/-- The full kernel body for one particle: sets `x, px, y, py`, adds
`z_ * beta0` to `zeta` and adds `length` to `s`; no other field is touched. -/
noncomputable def ThickCombinedFunctionDipole_track_local_particle
    (el : ThickCombinedFunctionDipoleData) (p : LocalParticle) : LocalParticle :=
  { p with
    x := x_new el p
    px := px_new el p
    y := y_new el p
    py := py_new el p
    zeta := p.zeta + z_ el p * p.beta0
    s := p.s + el.length }

/-- Checked division: evaluates `a / b` only when the divisor is nonzero,
otherwise reports failure.  Used to show that the kernel never divides by a
zero `Kx` or `Ky`. -/
noncomputable def cdiv (a b : ℝ) : Option ℝ :=
  if b = 0 then none else some (a / b)

/-- The `x_` update with its single division by `Kx` routed through `cdiv`,
branch structure exactly as in the source. -/
noncomputable def x_new_checked (el : ThickCombinedFunctionDipoleData)
    (p : LocalParticle) : Option ℝ :=
  if Kx el p < 0 ∨ Kx el p > 0 then
    (cdiv ((k0_eff el p - el.h) * (Cx el p - 1)) (Kx el p)).map
      (fun t => p.x * Cx el p + xp p * Sx el p + t)
  else
    some (p.x * Cx el p + xp p * Sx el p - (k0_eff el p - el.h) * 0.5 * el.length ^ 2)

/-- The path-length computation with every division whose divisor is `Kx`,
`2 * Kx`, `Ky` or `2 * Ky` routed through `cdiv`, branch structure exactly as
in the source. -/
noncomputable def pathLength_checked (el : ThickCombinedFunctionDipoleData)
    (p : LocalParticle) : Option ℝ := do
  let hx ←
    if Kx el p < 0 ∨ Kx el p > 0 then do
      let t1 ← cdiv (el.h * ((Cx el p - 1) * xp p + Sx el p * A el p
          + el.length * (k0_eff el p - el.h))) (Kx el p)
      let t2 ← cdiv (A el p ^ 2 * Cx el p * Sx el p) (2 * Kx el p)
      let t3 ← cdiv (A el p ^ 2 * el.length) (2 * Kx el p)
      let t4 ← cdiv (A el p * B p * Cx el p ^ 2) (Kx el p)
      let t5 ← cdiv (A el p * B p) (Kx el p)
      pure (el.length - t1
        + 0.5 * (-t2 + (B p ^ 2 * Cx el p * Sx el p) / 2 + t3
          + (B p ^ 2 * el.length) / 2 - t4 + t5))
    else
      pure (el.length
        + el.h * el.length * (3 * el.length * xp p + 6 * p.x
            - (k0_eff el p - el.h) * el.length ^ 2) / 6
        + 0.5 * B p ^ 2 * el.length)
  let hy ←
    if Ky el p < 0 ∨ Ky el p > 0 then do
      let u1 ← cdiv (C el p ^ 2 * Cy el p * Sy el p) (2 * Ky el p)
      let u2 ← cdiv (C el p ^ 2 * el.length) (2 * Ky el p)
      let u3 ← cdiv (C el p * D p * Cy el p ^ 2) (Ky el p)
      let u4 ← cdiv (C el p * D p) (Ky el p)
      pure (0.5 * (-u1 + (D p ^ 2 * Cy el p * Sy el p) / 2 + u2
        + (D p ^ 2 * el.length) / 2 - u3 + u4))
    else
      pure (0.5 * D p ^ 2 * el.length)
  pure (hx + hy)

/-- Modelled from the spec: `LocalParticle_kill_particle` is not under `src/`
(only its caller `assert_tracking` is); per the spec it "marks the particle
dead with a supplied kill-reason code", i.e. it writes the kill code into the
lifecycle `state` field and touches nothing else. -/
def LocalParticle_kill_particle (p : LocalParticle) (kill_state : ℤ) :
    LocalParticle := { p with state := kill_state }

/-- The tracking-mode assertion of `src/xtrack/headers/checks.h`: if
`at_turn < 0` the particle is killed with the supplied code and `0` is
returned, otherwise the particle is untouched and `1` is returned. -/
def assert_tracking (p : LocalParticle) (kill_state : ℤ) :
    LocalParticle × ℤ :=
  if p.at_turn < 0 then (LocalParticle_kill_particle p kill_state, 0)
  else (p, 1)

/-! Functions of the focusing constant `K` alone, with every other input held
fixed, used to state the `K → 0` limit claims.  Each is the corresponding
`NONZERO` branch expression of the kernel read as a function of `K`; the
horizontal drive `A = -Kx * x - k0 + h` is written `-K * x + a0` with
`a0 = h - k0_eff` held fixed. -/

/-- The horizontal position correction `(k0 - h) * (Cx - 1) / Kx` as a
function of `K`, with `g = k0_eff - h` fixed. -/
noncomputable def poscorrK (g L K : ℝ) : ℝ := g * (Cfun K L - 1) / K

/-- The `NONZERO(Kx)` curvature term of the path length,
`-(h * ((Cx - 1) * xp + Sx * A + length * (k0 - h))) / Kx`, as a function of
`K`. -/
noncomputable def curvK (h k0e x xp L K : ℝ) : ℝ :=
  -(h * ((Cfun K L - 1) * xp + Sfun K L * (-K * x - k0e + h)
    + L * (k0e - h))) / K

/-- The `NONZERO` second-order cross term of the path length as a function of
`K`, with the drive written `-K * x + a0`.  The horizontal term is the case
`a0 = h - k0_eff`, `B = xp`; the vertical term is the case `x = y`, `a0 = 0`,
`B = yp` (since `C = -Ky * y`). -/
noncomputable def crossK (x B a0 L K : ℝ) : ℝ :=
  0.5 * (-((-K * x + a0) ^ 2 * Cfun K L * Sfun K L) / (2 * K)
    + (B ^ 2 * Cfun K L * Sfun K L) / 2
    + ((-K * x + a0) ^ 2 * L) / (2 * K)
    + (B ^ 2 * L) / 2
    - ((-K * x + a0) * B * (Cfun K L) ^ 2) / K
    + ((-K * x + a0) * B) / K)

/-- The full `x_` update read as a function of `K`, with `g = k0_eff - h`
fixed (both branches of the source). -/
noncomputable def xNewK (x xp g L K : ℝ) : ℝ :=
  if K < 0 ∨ K > 0 then
    x * Cfun K L + xp * Sfun K L + g * (Cfun K L - 1) / K
  else
    x * Cfun K L + xp * Sfun K L - g * 0.5 * L ^ 2

/-- The `px_` update read as a function of `K`, with `a0 = h - k0_eff` and
`dp1 = delta_plus_1` fixed. -/
noncomputable def pxNewK (x B a0 dp1 L K : ℝ) : ℝ :=
  ((-K * x + a0) * Sfun K L + B * Cfun K L) * dp1

/-! Concrete sample inputs used by witnesses and counterexamples. -/

/-- Reference particle on axis: `delta = ptau = 0`, `beta0 = rvv = 1`. -/
def pRef : LocalParticle :=
  { x := 0, px := 0, y := 0, py := 0, zeta := 0, s := 0, delta := 0,
    ptau := 0, beta0 := 1, rvv := 1, state := 1, at_turn := 0 }

/-- Particle whose `ptau` differs from its `delta`. -/
def pTauOne : LocalParticle := { pRef with ptau := 1 }

/-- Particle with a negative turn counter (analysis mode). -/
def pTurnNeg : LocalParticle := { pRef with at_turn := -1 }

/-- Particle with a positive turn counter (genuine tracking). -/
def pTurnPos : LocalParticle := { pRef with at_turn := 5 }

/-- Sample element with nonzero `Kx` and `Ky` at `delta = 0`. -/
def elFocus : ThickCombinedFunctionDipoleData :=
  { length := 1, k0 := 0, k1 := 1, h := 0 }

/-- Sample drift element. -/
def elDrift : ThickCombinedFunctionDipoleData :=
  { length := 1, k0 := 0, k1 := 0, h := 0 }

/-- Short alias for the kernel. -/
noncomputable def track : ThickCombinedFunctionDipoleData → LocalParticle →
    LocalParticle := ThickCombinedFunctionDipole_track_local_particle

/-- Statement of claim C1: the transverse transport map formulas, written out
as the specification states them. -/
def C1Prop (el : ThickCombinedFunctionDipoleData) (p : LocalParticle) : Prop :=
  k0_eff el p = el.k0 / (p.delta + 1) ∧
  k1_eff el p = el.k1 / (p.delta + 1) ∧
  Kx el p = k0_eff el p * el.h + k1_eff el p ∧
  Ky el p = -k1_eff el p ∧
  (∀ K L : ℝ, K > 0 →
    Sfun K L = Real.sin (Real.sqrt K * L) / Real.sqrt K ∧
    Cfun K L = Real.cos (Real.sqrt K * L)) ∧
  (∀ K L : ℝ, K < 0 →
    Sfun K L = Real.sinh (Real.sqrt (-K) * L) / Real.sqrt (-K) ∧
    Cfun K L = Real.cosh (Real.sqrt (-K) * L)) ∧
  (∀ L : ℝ, Sfun 0 L = L ∧ Cfun 0 L = 1) ∧
  (track el p).x = p.x * Cx el p + p.px / (p.delta + 1) * Sx el p
    + (if Kx el p ≠ 0 then (k0_eff el p - el.h) * (Cx el p - 1) / Kx el p
       else -((k0_eff el p - el.h) * el.length ^ 2 / 2)) ∧
  (track el p).y = p.y * Cy el p + p.py / (p.delta + 1) * Sy el p ∧
  (track el p).px = ((-Kx el p * p.x - k0_eff el p + el.h) * Sx el p
    + p.px / (p.delta + 1) * Cx el p) * (p.delta + 1) ∧
  (track el p).py = (-Ky el p * p.y * Sy el p
    + p.py / (p.delta + 1) * Cy el p) * (p.delta + 1)

/-- Statement of claim C4 as amended: `bet` is computed from the particle's
`ptau` (the code's `pt`), and agrees with the spec's `delta`-based formula
exactly when `ptau = delta`. -/
def C4Prop (p : LocalParticle) : Prop :=
  bet p = delta_plus_1 p / (beti p + p.ptau) ∧
  (p.ptau = p.delta → bet p = (p.delta + 1) / (beti p + p.delta))

/-- Statement of claim C5: with `k0 = k1 = h = 0` the map is an exact linear
drift with the paraxial path-length correction. -/
def C5Prop (L : ℝ) (p : LocalParticle) : Prop :=
  (track ⟨L, 0, 0, 0⟩ p).x = p.x + p.px / (p.delta + 1) * L ∧
  (track ⟨L, 0, 0, 0⟩ p).y = p.y + p.py / (p.delta + 1) * L ∧
  (track ⟨L, 0, 0, 0⟩ p).px = p.px ∧
  (track ⟨L, 0, 0, 0⟩ p).py = p.py ∧
  pathLength ⟨L, 0, 0, 0⟩ p
    = L + 0.5 * ((p.px / (p.delta + 1)) ^ 2 + (p.py / (p.delta + 1)) ^ 2) * L

/-- Statement of claim C8: the tracking-mode assertion kills the particle and
returns 0 when `at_turn < 0`, and returns 1 leaving it untouched otherwise. -/
def C8Prop (p : LocalParticle) (ks : ℤ) : Prop :=
  (p.at_turn < 0 → assert_tracking p ks = ({ p with state := ks }, 0)) ∧
  (0 ≤ p.at_turn → assert_tracking p ks = (p, 1))

/-- Statement of claim C9: a zero-length element acts as the identity on the
six phase-space coordinates. -/
def C9Prop (k0 k1 h : ℝ) (p : LocalParticle) : Prop :=
  (track ⟨0, k0, k1, h⟩ p).x = p.x ∧
  (track ⟨0, k0, k1, h⟩ p).px = p.px ∧
  (track ⟨0, k0, k1, h⟩ p).y = p.y ∧
  (track ⟨0, k0, k1, h⟩ p).py = p.py ∧
  (track ⟨0, k0, k1, h⟩ p).zeta = p.zeta ∧
  (track ⟨0, k0, k1, h⟩ p).s = p.s

/-! Reduction lemmas for the branch functions. -/

lemma NONZERO_iff (x : ℝ) : NONZERO x ↔ x ≠ 0 := by
  rw [NONZERO, ← ne_iff_lt_or_gt]

lemma Sfun_of_pos {K : ℝ} (L : ℝ) (hK : 0 < K) :
    Sfun K L = Real.sin (Real.sqrt K * L) / Real.sqrt K := if_pos hK

lemma Cfun_of_pos {K : ℝ} (L : ℝ) (hK : 0 < K) :
    Cfun K L = Real.cos (Real.sqrt K * L) := if_pos hK

lemma Sfun_of_neg {K : ℝ} (L : ℝ) (hK : K < 0) :
    Sfun K L = Real.sinh (Real.sqrt (-K) * L) / Real.sqrt (-K) := by
  rw [Sfun, if_neg (not_lt.mpr hK.le), if_pos hK]

lemma Cfun_of_neg {K : ℝ} (L : ℝ) (hK : K < 0) :
    Cfun K L = Real.cosh (Real.sqrt (-K) * L) := by
  rw [Cfun, if_neg (not_lt.mpr hK.le), if_pos hK]

lemma Sfun_zero (L : ℝ) : Sfun 0 L = L := by
  rw [Sfun, if_neg (lt_irrefl 0), if_neg (lt_irrefl 0)]

lemma Cfun_zero (L : ℝ) : Cfun 0 L = 1 := by
  rw [Cfun, if_neg (lt_irrefl 0), if_neg (lt_irrefl 0)]

lemma Sfun_len_zero (K : ℝ) : Sfun K 0 = 0 := by
  rw [Sfun]; split_ifs <;> simp

lemma Cfun_len_zero (K : ℝ) : Cfun K 0 = 1 := by
  rw [Cfun]; split_ifs <;> simp

/-- C6: one invocation of the transport map writes only `x, px, y, py` (set),
`zeta` (incremented by `z_ * beta0`) and `s` (incremented by `length`); the
lifecycle fields `state`, `at_turn` and the kinematic fields `delta`, `ptau`,
`beta0`, `rvv` are left unchanged, for every input. -/
theorem C6_frame (el : ThickCombinedFunctionDipoleData) (p : LocalParticle) :
    (track el p).state = p.state ∧
    (track el p).at_turn = p.at_turn ∧
    (track el p).delta = p.delta ∧
    (track el p).ptau = p.ptau ∧
    (track el p).beta0 = p.beta0 ∧
    (track el p).rvv = p.rvv ∧
    (track el p).x = x_new el p ∧
    (track el p).px = px_new el p ∧
    (track el p).y = y_new el p ∧
    (track el p).py = py_new el p ∧
    (track el p).zeta = p.zeta + z_ el p * p.beta0 ∧
    (track el p).s = p.s + el.length :=
  ⟨rfl, rfl, rfl, rfl, rfl, rfl, rfl, rfl, rfl, rfl, rfl, rfl⟩

/-- C10: the horizontal outputs do not depend on `y, py`, and the vertical
outputs do not depend on `x, px` — the two transverse planes are decoupled. -/
theorem C10_transverse_decoupling (el : ThickCombinedFunctionDipoleData)
    (p : LocalParticle) (y2 py2 x2 px2 : ℝ) :
    (track el { p with y := y2, py := py2 }).x = (track el p).x ∧
    (track el { p with y := y2, py := py2 }).px = (track el p).px ∧
    (track el { p with x := x2, px := px2 }).y = (track el p).y ∧
    (track el { p with x := x2, px := px2 }).py = (track el p).py :=
  ⟨rfl, rfl, rfl, rfl⟩

/-- C2: the longitudinal update adds exactly
`(length * beti - length_ / bet) * beta0` to `zeta` and exactly the nominal
`length` to `s`, where the path length `length_` is the branched closed-form
expression quoted by the specification. -/
theorem C2_longitudinal (el : ThickCombinedFunctionDipoleData)
    (p : LocalParticle) :
    (track el p).zeta
      = p.zeta + (el.length * beti p - pathLength el p / bet p) * p.beta0 ∧
    (track el p).s = p.s + el.length ∧
    pathLength el p =
      (if Kx el p ≠ 0 then
        el.length
          - el.h * ((Cx el p - 1) * (p.px / (p.delta + 1)) + Sx el p * A el p
              + el.length * (k0_eff el p - el.h)) / Kx el p
          + 0.5 * (-(A el p ^ 2 * Cx el p * Sx el p) / (2 * Kx el p)
              + ((p.px / (p.delta + 1)) ^ 2 * Cx el p * Sx el p) / 2
              + (A el p ^ 2 * el.length) / (2 * Kx el p)
              + ((p.px / (p.delta + 1)) ^ 2 * el.length) / 2
              - (A el p * (p.px / (p.delta + 1)) * Cx el p ^ 2) / Kx el p
              + (A el p * (p.px / (p.delta + 1))) / Kx el p)
      else
        el.length
          + el.h * el.length * (3 * el.length * (p.px / (p.delta + 1)) + 6 * p.x
              - (k0_eff el p - el.h) * el.length ^ 2) / 6
          + 0.5 * (p.px / (p.delta + 1)) ^ 2 * el.length)
      + (if Ky el p ≠ 0 then
        0.5 * (-(C el p ^ 2 * Cy el p * Sy el p) / (2 * Ky el p)
            + ((p.py / (p.delta + 1)) ^ 2 * Cy el p * Sy el p) / 2
            + (C el p ^ 2 * el.length) / (2 * Ky el p)
            + ((p.py / (p.delta + 1)) ^ 2 * el.length) / 2
            - (C el p * (p.py / (p.delta + 1)) * Cy el p ^ 2) / Ky el p
            + (C el p * (p.py / (p.delta + 1))) / Ky el p)
      else
        0.5 * (p.py / (p.delta + 1)) ^ 2 * el.length) := by
  refine ⟨rfl, rfl, ?_⟩
  rw [pathLength]
  congr 1
  · exact if_congr (ne_iff_lt_or_gt (b := (0:ℝ))).symm rfl rfl
  · exact if_congr (ne_iff_lt_or_gt (b := (0:ℝ))).symm rfl rfl

/-- C4 (counterexample): the quantity `bet` is computed from `ptau`, not from
`delta`; on a particle with `ptau = 1` and `delta = 0` the spec's
`(delta + 1) / (beti + delta)` differs from the code's value. -/
theorem C4_counterexample :
    bet pTauOne ≠ (pTauOne.delta + 1) / (beti pTauOne + pTauOne.delta) := by
  simp only [bet, beti, delta_plus_1, pTauOne, pRef]
  norm_num

/-- C4 (amended): `bet = delta_plus_1 / (beti + pt)` where `pt` is the
particle's `ptau` field; this agrees with the spec's `delta`-based reading
exactly when `ptau = delta`. -/
theorem C4_bet (p : LocalParticle) : C4Prop p :=
  ⟨rfl, fun h => by rw [bet, delta_plus_1, h]⟩

theorem C4_bet_witness :
    pRef.ptau = pRef.delta ∧
    bet pRef = (pRef.delta + 1) / (beti pRef + pRef.delta) :=
  ⟨rfl, (C4_bet pRef).2 rfl⟩

/-- C8: `assert_tracking` kills the particle with the supplied code and
returns 0 exactly when `at_turn < 0`; otherwise it returns 1 and leaves every
field unchanged. -/
theorem C8_assert_tracking (p : LocalParticle) (ks : ℤ) : C8Prop p ks := by
  constructor
  · intro h
    rw [assert_tracking, if_pos h]
    rfl
  · intro h
    rw [assert_tracking, if_neg (not_lt.mpr h)]

theorem C8_assert_tracking_witness :
    pTurnNeg.at_turn < 0 ∧
    assert_tracking pTurnNeg 7 = ({ pTurnNeg with state := 7 }, 0) ∧
    0 ≤ pTurnPos.at_turn ∧
    assert_tracking pTurnPos 7 = (pTurnPos, 1) :=
  ⟨by decide, (C8_assert_tracking pTurnNeg 7).1 (by decide),
    by decide, (C8_assert_tracking pTurnPos 7).2 (by decide)⟩

/-- C1: the transverse transport map computes the momentum-scaled strengths,
the per-axis sign-branched `S`/`C` coefficients and the new `x, y, px, py`
exactly as the specification states. -/
theorem C1_transverse_map (el : ThickCombinedFunctionDipoleData)
    (p : LocalParticle) (hd : delta_plus_1 p ≠ 0) : C1Prop el p := by
  refine ⟨rfl, rfl, rfl, rfl, ?_, ?_, ?_, ?_, rfl, rfl, rfl⟩
  · exact fun K L hK => ⟨Sfun_of_pos L hK, Cfun_of_pos L hK⟩
  · exact fun K L hK => ⟨Sfun_of_neg L hK, Cfun_of_neg L hK⟩
  · exact fun L => ⟨Sfun_zero L, Cfun_zero L⟩
  · show x_new el p = _
    rw [x_new]
    rcases eq_or_ne (Kx el p) 0 with hK | hK
    · rw [if_neg (by rw [hK]; exact fun hc => absurd hK (ne_iff_lt_or_gt.mpr (by simpa using hc))),
        if_neg (by simpa using hK)]
      show p.x * Cx el p + xp p * Sx el p - _ = _
      simp only [xp, delta_plus_1]
      ring
    · rw [if_pos (ne_iff_lt_or_gt.mp hK), if_pos hK]
      show p.x * Cx el p + xp p * Sx el p + _ = _
      simp only [xp, delta_plus_1]

theorem C1_transverse_map_witness :
    delta_plus_1 pRef ≠ 0 ∧ C1Prop elFocus pRef :=
  ⟨by norm_num [delta_plus_1, pRef],
    C1_transverse_map elFocus pRef (by norm_num [delta_plus_1, pRef])⟩

/-- C5: with `k0 = k1 = h = 0` the map is an exact linear drift and the path
length reduces to the standard paraxial formula. -/
theorem C5_drift_limit (L : ℝ) (p : LocalParticle)
    (hd : delta_plus_1 p ≠ 0) : C5Prop L p := by
  have hd' : p.delta + 1 ≠ 0 := hd
  have hk0 : k0_eff ⟨L, 0, 0, 0⟩ p = 0 := zero_div _
  have hk1 : k1_eff ⟨L, 0, 0, 0⟩ p = 0 := zero_div _
  have hKx : Kx ⟨L, 0, 0, 0⟩ p = 0 := by
    rw [Kx, hk0, hk1]; ring
  have hKy : Ky ⟨L, 0, 0, 0⟩ p = 0 := by
    rw [Ky, hk1]; ring
  have hA : A ⟨L, 0, 0, 0⟩ p = 0 := by
    rw [A, hKx, hk0]; show -0 * p.x - 0 + 0 = 0; ring
  have hC : C ⟨L, 0, 0, 0⟩ p = 0 := by
    rw [C, hKy]; ring
  have hcx : ¬(Kx ⟨L, 0, 0, 0⟩ p < 0 ∨ Kx ⟨L, 0, 0, 0⟩ p > 0) := by
    rw [hKx]; simp
  have hcy : ¬(Ky ⟨L, 0, 0, 0⟩ p < 0 ∨ Ky ⟨L, 0, 0, 0⟩ p > 0) := by
    rw [hKy]; simp
  have hSx : Sx ⟨L, 0, 0, 0⟩ p = L := by rw [Sx, hKx]; exact Sfun_zero L
  have hCx : Cx ⟨L, 0, 0, 0⟩ p = 1 := by rw [Cx, hKx]; exact Cfun_zero L
  have hSy : Sy ⟨L, 0, 0, 0⟩ p = L := by rw [Sy, hKy]; exact Sfun_zero L
  have hCy : Cy ⟨L, 0, 0, 0⟩ p = 1 := by rw [Cy, hKy]; exact Cfun_zero L
  refine ⟨?_, ?_, ?_, ?_, ?_⟩
  · show x_new ⟨L, 0, 0, 0⟩ p = _
    rw [x_new, if_neg hcx, hSx, hCx, hk0]
    simp only [xp, delta_plus_1]
    show p.x * 1 + p.px / (p.delta + 1) * L - (0 - (0:ℝ)) * 0.5 * L ^ 2 = _
    ring
  · show y_new ⟨L, 0, 0, 0⟩ p = _
    rw [y_new, hSy, hCy]
    simp only [yp, delta_plus_1]
    ring
  · show px_new ⟨L, 0, 0, 0⟩ p = _
    rw [px_new, hA, hSx, hCx]
    simp only [B, xp, delta_plus_1]
    field_simp
  · show py_new ⟨L, 0, 0, 0⟩ p = _
    rw [py_new, hC, hSy, hCy]
    simp only [D, yp, delta_plus_1]
    field_simp
  · rw [pathLength, if_neg hcx, if_neg hcy, hk0]
    simp only [B, D, xp, yp, delta_plus_1]
    ring

theorem C5_drift_limit_witness :
    delta_plus_1 pRef ≠ 0 ∧ C5Prop 1 pRef :=
  ⟨by norm_num [delta_plus_1, pRef],
    C5_drift_limit 1 pRef (by norm_num [delta_plus_1, pRef])⟩

/-- C9: a zero-length element leaves all six phase-space coordinates exactly
unchanged (it increments `zeta` and `s` by 0). -/
theorem C9_zero_length (k0 k1 h : ℝ) (p : LocalParticle)
    (hd : delta_plus_1 p ≠ 0) : C9Prop k0 k1 h p := by
  have hd' : p.delta + 1 ≠ 0 := hd
  have hS : ∀ K : ℝ, Sfun K (0:ℝ) = 0 := Sfun_len_zero
  have hC1 : ∀ K : ℝ, Cfun K (0:ℝ) = 1 := Cfun_len_zero
  have hSx : Sx ⟨0, k0, k1, h⟩ p = 0 := hS _
  have hCx : Cx ⟨0, k0, k1, h⟩ p = 1 := hC1 _
  have hSy : Sy ⟨0, k0, k1, h⟩ p = 0 := hS _
  have hCy : Cy ⟨0, k0, k1, h⟩ p = 1 := hC1 _
  have hpl : pathLength ⟨0, k0, k1, h⟩ p = 0 := by
    rw [pathLength]
    rcases Classical.em (Kx ⟨0, k0, k1, h⟩ p < 0 ∨ Kx ⟨0, k0, k1, h⟩ p > 0) with hx | hx
    · rw [if_pos hx, hSx, hCx]
      rcases Classical.em (Ky ⟨0, k0, k1, h⟩ p < 0 ∨ Ky ⟨0, k0, k1, h⟩ p > 0) with hy | hy
      · rw [if_pos hy, hSy, hCy]; show (0:ℝ) - _ + _ + _ = 0; ring
      · rw [if_neg hy]; show (0:ℝ) - _ + _ + _ = 0; ring
    · rw [if_neg hx]
      rcases Classical.em (Ky ⟨0, k0, k1, h⟩ p < 0 ∨ Ky ⟨0, k0, k1, h⟩ p > 0) with hy | hy
      · rw [if_pos hy, hSy, hCy]; show (0:ℝ) + _ + _ + _ = 0; ring
      · rw [if_neg hy]; show (0:ℝ) + _ + _ + _ = 0; ring
  refine ⟨?_, ?_, ?_, ?_, ?_, ?_⟩
  · show x_new ⟨0, k0, k1, h⟩ p = _
    rw [x_new]
    rcases Classical.em (Kx ⟨0, k0, k1, h⟩ p < 0 ∨ Kx ⟨0, k0, k1, h⟩ p > 0) with hx | hx
    · rw [if_pos hx, hSx, hCx]
      have hne : Kx ⟨0, k0, k1, h⟩ p ≠ 0 := ne_iff_lt_or_gt.mpr hx
      field_simp
    · rw [if_neg hx, hSx, hCx]
      show p.x * 1 + xp p * 0 - _ * 0.5 * (0:ℝ) ^ 2 = _
      ring
  · show px_new ⟨0, k0, k1, h⟩ p = _
    rw [px_new, hSx, hCx]
    simp only [B, xp, delta_plus_1]
    field_simp
  · show y_new ⟨0, k0, k1, h⟩ p = _
    rw [y_new, hSy, hCy]
    simp only [yp, delta_plus_1]
    field_simp
  · show py_new ⟨0, k0, k1, h⟩ p = _
    rw [py_new, hSy, hCy]
    simp only [D, yp, delta_plus_1]
    field_simp
  · show p.zeta + z_ ⟨0, k0, k1, h⟩ p * p.beta0 = p.zeta
    rw [z_, hpl]
    show p.zeta + ((0:ℝ) * beti p - 0 / bet p) * p.beta0 = p.zeta
    ring
  · show p.s + (0:ℝ) = p.s
    ring

theorem C9_zero_length_witness :
    delta_plus_1 pRef ≠ 0 ∧ C9Prop 1 1 1 pRef :=
  ⟨by norm_num [delta_plus_1, pRef],
    C9_zero_length 1 1 1 pRef (by norm_num [delta_plus_1, pRef])⟩

/-- C7: `NONZERO` is the strict two-sided sign test, equivalent to exact
inequality with zero; routing every division whose divisor involves `Kx` or
`Ky` through checked division (which fails on a zero divisor) reproduces the
kernel's values for every input, so no division by a zero `Kx` or `Ky` is
ever evaluated. -/
theorem C7_no_division_by_zero :
    (∀ x : ℝ, NONZERO x ↔ x ≠ 0) ∧
    ∀ (el : ThickCombinedFunctionDipoleData) (p : LocalParticle),
      x_new_checked el p = some (x_new el p) ∧
      pathLength_checked el p = some (pathLength el p) := by
  refine ⟨NONZERO_iff, fun el p => ⟨?_, ?_⟩⟩
  · rw [x_new_checked, x_new]
    rcases Classical.em (Kx el p < 0 ∨ Kx el p > 0) with hx | hx
    · have hne : Kx el p ≠ 0 := ne_iff_lt_or_gt.mpr hx
      rw [if_pos hx, if_pos hx, cdiv, if_neg hne]
      rfl
    · rw [if_neg hx, if_neg hx]
  · rw [pathLength_checked, pathLength]
    rcases Classical.em (Kx el p < 0 ∨ Kx el p > 0) with hx | hx
    · have hne : Kx el p ≠ 0 := ne_iff_lt_or_gt.mpr hx
      have hne2 : 2 * Kx el p ≠ 0 := mul_ne_zero two_ne_zero hne
      rcases Classical.em (Ky el p < 0 ∨ Ky el p > 0) with hy | hy
      · have hney : Ky el p ≠ 0 := ne_iff_lt_or_gt.mpr hy
        have hney2 : 2 * Ky el p ≠ 0 := mul_ne_zero two_ne_zero hney
        simp only [if_pos hx, if_pos hy, cdiv, if_neg hne, if_neg hne2,
          if_neg hney, if_neg hney2, Option.pure_def, Option.bind_eq_bind,
          Option.some_bind, Option.some.injEq]
        ring
      · simp only [if_pos hx, if_neg hy, cdiv, if_neg hne, if_neg hne2,
          Option.pure_def, Option.bind_eq_bind, Option.some_bind,
          Option.some.injEq]
        ring
    · rcases Classical.em (Ky el p < 0 ∨ Ky el p > 0) with hy | hy
      · have hney : Ky el p ≠ 0 := ne_iff_lt_or_gt.mpr hy
        have hney2 : 2 * Ky el p ≠ 0 := mul_ne_zero two_ne_zero hney
        simp only [if_neg hx, if_pos hy, cdiv, if_neg hney, if_neg hney2,
          Option.pure_def, Option.bind_eq_bind, Option.some_bind,
          Option.some.injEq]
        ring
      · simp only [if_neg hx, if_neg hy, Option.pure_def, Option.bind_eq_bind,
          Option.some_bind, Option.some.injEq]

/-! Limit machinery for the `K → 0` claims.  The four basic limits
`(sin(uL) - uL)/u^3`, `(cos(uL) - 1)/u^2`, `(sinh(uL) - uL)/u^3` and
`(cosh(uL) - 1)/u^2` as `u → 0+` come from the quartic Taylor remainder
bounds of `sin`, `cos`, `sinh`, `cosh`. -/

lemma tendsto_of_abs_sub_le {f g : ℝ → ℝ} {l : Filter ℝ} {a : ℝ}
    (h : ∀ᶠ u in l, |f u - a| ≤ g u) (hg : Tendsto g l (𝓝 0)) :
    Tendsto f l (𝓝 a) := by
  rw [tendsto_iff_dist_tendsto_zero]
  simp only [Real.dist_eq]
  exact squeeze_zero' (h.mono fun u _ => abs_nonneg _) h hg

lemma tendsto_quartic_div {F : ℝ → ℝ} {c : ℝ} (hc : 0 ≤ c)
    (hb : ∀ x : ℝ, |x| ≤ 1 → |F x| ≤ |x| ^ 4 * c) (L : ℝ) {n : ℕ}
    (hn : n ≤ 3) :
    Tendsto (fun u => F (u * L) / u ^ n) (𝓝[>] (0:ℝ)) (𝓝 0) := by
  apply tendsto_of_abs_sub_le (g := fun u => u * (|L| ^ 4 * c))
  · have hδ : (0:ℝ) < min 1 (|L| + 1)⁻¹ := by positivity
    filter_upwards [Ioo_mem_nhdsWithin_Ioi (Set.mem_Ico.mpr ⟨le_refl 0, hδ⟩)]
      with u hu
    obtain ⟨hu0, hu1⟩ := hu
    have hu1' : u ≤ 1 := le_of_lt (lt_of_lt_of_le hu1 (min_le_left _ _))
    have huL : |u * L| ≤ 1 := by
      rw [abs_mul, abs_of_pos hu0]
      calc u * |L| ≤ (|L| + 1)⁻¹ * |L| :=
            mul_le_mul_of_nonneg_right
              (le_of_lt (lt_of_lt_of_le hu1 (min_le_right _ _))) (abs_nonneg _)
        _ = |L| / (|L| + 1) := by rw [inv_mul_eq_div]
        _ ≤ 1 := div_le_one_of_le (by linarith [abs_nonneg L]) (by positivity)
    have key := hb (u * L) huL
    rw [sub_zero, abs_div, abs_pow, abs_of_pos hu0,
      div_le_iff (pow_pos hu0 n)]
    calc |F (u * L)| ≤ |u * L| ^ 4 * c := key
      _ = u ^ 4 * |L| ^ 4 * c := by
          rw [abs_mul, abs_of_pos hu0, mul_pow]
      _ ≤ u ^ (n + 1) * |L| ^ 4 * c := by
          have hpow : u ^ 4 ≤ u ^ (n + 1) :=
            pow_le_pow_of_le_one (le_of_lt hu0) hu1' (by omega)
          exact mul_le_mul_of_nonneg_right
            (mul_le_mul_of_nonneg_right hpow (by positivity)) hc
      _ = u * (|L| ^ 4 * c) * u ^ n := by ring
  · have h1 : Tendsto (fun u : ℝ => u) (𝓝[>] (0:ℝ)) (𝓝 0) :=
      tendsto_id.mono_left nhdsWithin_le_nhds
    simpa using h1.mul_const (|L| ^ 4 * c)

lemma exp_taylor4 (x : ℝ) (hx : |x| ≤ 1) :
    |Real.exp x - (1 + x + x ^ 2 / 2 + x ^ 3 / 6)| ≤ |x| ^ 4 * (5 / 96) := by
  have h := Real.exp_bound hx (n := 4) (by norm_num)
  have hs : ∑ m ∈ Finset.range 4, x ^ m / m.factorial
      = 1 + x + x ^ 2 / 2 + x ^ 3 / 6 := by
    rw [Finset.sum_range_succ, Finset.sum_range_succ, Finset.sum_range_succ,
      Finset.sum_range_succ, Finset.sum_range_zero]
    norm_num [Nat.factorial]
  rw [hs] at h
  refine h.trans (le_of_eq ?_)
  norm_num [Nat.factorial]

lemma sinh_taylor4 (x : ℝ) (hx : |x| ≤ 1) :
    |Real.sinh x - (x + x ^ 3 / 6)| ≤ |x| ^ 4 * (5 / 96) := by
  have h1 := exp_taylor4 x hx
  have h2 := exp_taylor4 (-x) (by rwa [abs_neg])
  rw [abs_neg] at h2
  have hid : Real.sinh x - (x + x ^ 3 / 6)
      = ((Real.exp x - (1 + x + x ^ 2 / 2 + x ^ 3 / 6))
        - (Real.exp (-x) - (1 + -x + (-x) ^ 2 / 2 + (-x) ^ 3 / 6))) / 2 := by
    rw [Real.sinh_eq]; ring
  rw [hid]
  have htri : |(Real.exp x - (1 + x + x ^ 2 / 2 + x ^ 3 / 6))
      - (Real.exp (-x) - (1 + -x + (-x) ^ 2 / 2 + (-x) ^ 3 / 6))|
      ≤ |Real.exp x - (1 + x + x ^ 2 / 2 + x ^ 3 / 6)|
        + |Real.exp (-x) - (1 + -x + (-x) ^ 2 / 2 + (-x) ^ 3 / 6)| :=
    abs_sub _ _
  rw [abs_div, abs_two]
  linarith

lemma cosh_taylor4 (x : ℝ) (hx : |x| ≤ 1) :
    |Real.cosh x - (1 + x ^ 2 / 2)| ≤ |x| ^ 4 * (5 / 96) := by
  have h1 := exp_taylor4 x hx
  have h2 := exp_taylor4 (-x) (by rwa [abs_neg])
  rw [abs_neg] at h2
  have hid : Real.cosh x - (1 + x ^ 2 / 2)
      = ((Real.exp x - (1 + x + x ^ 2 / 2 + x ^ 3 / 6))
        + (Real.exp (-x) - (1 + -x + (-x) ^ 2 / 2 + (-x) ^ 3 / 6))) / 2 := by
    rw [Real.cosh_eq]; ring
  rw [hid]
  have htri : |(Real.exp x - (1 + x + x ^ 2 / 2 + x ^ 3 / 6))
      + (Real.exp (-x) - (1 + -x + (-x) ^ 2 / 2 + (-x) ^ 3 / 6))|
      ≤ |Real.exp x - (1 + x + x ^ 2 / 2 + x ^ 3 / 6)|
        + |Real.exp (-x) - (1 + -x + (-x) ^ 2 / 2 + (-x) ^ 3 / 6)| :=
    abs_add _ _
  rw [abs_div, abs_two]
  linarith

lemma sin_cube_lim (L : ℝ) :
    Tendsto (fun u => (Real.sin (u * L) - u * L) / u ^ 3) (𝓝[>] (0:ℝ))
      (𝓝 (-(L ^ 3 / 6))) := by
  have h := tendsto_quartic_div (F := fun x => Real.sin x - (x - x ^ 3 / 6))
    (c := 5 / 96) (by norm_num) (fun x hx => Real.sin_bound hx) L
    (n := 3) (by norm_num)
  have h2 := h.sub_const (L ^ 3 / 6)
  rw [zero_sub] at h2
  refine Tendsto.congr' ?_ h2
  filter_upwards [self_mem_nhdsWithin] with u hu
  have hu0 : u ≠ 0 := ne_of_gt hu
  field_simp
  ring

lemma cos_sq_lim (L : ℝ) :
    Tendsto (fun u => (Real.cos (u * L) - 1) / u ^ 2) (𝓝[>] (0:ℝ))
      (𝓝 (-(L ^ 2 / 2))) := by
  have h := tendsto_quartic_div (F := fun x => Real.cos x - (1 - x ^ 2 / 2))
    (c := 5 / 96) (by norm_num) (fun x hx => Real.cos_bound hx) L
    (n := 2) (by norm_num)
  have h2 := h.sub_const (L ^ 2 / 2)
  rw [zero_sub] at h2
  refine Tendsto.congr' ?_ h2
  filter_upwards [self_mem_nhdsWithin] with u hu
  have hu0 : u ≠ 0 := ne_of_gt hu
  field_simp
  ring

lemma sinh_cube_lim (L : ℝ) :
    Tendsto (fun u => (Real.sinh (u * L) - u * L) / u ^ 3) (𝓝[>] (0:ℝ))
      (𝓝 (L ^ 3 / 6)) := by
  have h := tendsto_quartic_div (F := fun x => Real.sinh x - (x + x ^ 3 / 6))
    (c := 5 / 96) (by norm_num) (fun x hx => sinh_taylor4 x hx) L
    (n := 3) (by norm_num)
  have h2 := h.add_const (L ^ 3 / 6)
  rw [zero_add] at h2
  refine Tendsto.congr' ?_ h2
  filter_upwards [self_mem_nhdsWithin] with u hu
  have hu0 : u ≠ 0 := ne_of_gt hu
  field_simp
  ring

lemma cosh_sq_lim (L : ℝ) :
    Tendsto (fun u => (Real.cosh (u * L) - 1) / u ^ 2) (𝓝[>] (0:ℝ))
      (𝓝 (L ^ 2 / 2)) := by
  have h := tendsto_quartic_div (F := fun x => Real.cosh x - (1 + x ^ 2 / 2))
    (c := 5 / 96) (by norm_num) (fun x hx => cosh_taylor4 x hx) L
    (n := 2) (by norm_num)
  have h2 := h.add_const (L ^ 2 / 2)
  rw [zero_add] at h2
  refine Tendsto.congr' ?_ h2
  filter_upwards [self_mem_nhdsWithin] with u hu
  have hu0 : u ≠ 0 := ne_of_gt hu
  field_simp
  ring

lemma sin_div_lim (L : ℝ) :
    Tendsto (fun u => Real.sin (u * L) / u) (𝓝[>] (0:ℝ)) (𝓝 L) := by
  have h1 : Tendsto (fun u : ℝ => u ^ 2) (𝓝[>] (0:ℝ)) (𝓝 0) := by
    have h := ((continuous_pow 2).tendsto (0:ℝ)).mono_left
      (nhdsWithin_le_nhds (s := Set.Ioi (0:ℝ)))
    simpa using h
  have h2 := h1.mul (sin_cube_lim L)
  rw [zero_mul] at h2
  have h3 := h2.const_add L
  rw [add_zero] at h3
  refine Tendsto.congr' ?_ h3
  filter_upwards [self_mem_nhdsWithin] with u hu
  have hu0 : u ≠ 0 := ne_of_gt hu
  field_simp
  ring

lemma sinh_div_lim (L : ℝ) :
    Tendsto (fun u => Real.sinh (u * L) / u) (𝓝[>] (0:ℝ)) (𝓝 L) := by
  have h1 : Tendsto (fun u : ℝ => u ^ 2) (𝓝[>] (0:ℝ)) (𝓝 0) := by
    have h := ((continuous_pow 2).tendsto (0:ℝ)).mono_left
      (nhdsWithin_le_nhds (s := Set.Ioi (0:ℝ)))
    simpa using h
  have h2 := h1.mul (sinh_cube_lim L)
  rw [zero_mul] at h2
  have h3 := h2.const_add L
  rw [add_zero] at h3
  refine Tendsto.congr' ?_ h3
  filter_upwards [self_mem_nhdsWithin] with u hu
  have hu0 : u ≠ 0 := ne_of_gt hu
  field_simp
  ring

lemma sqrt_tendsto_pos :
    Tendsto Real.sqrt (𝓝[>] (0:ℝ)) (𝓝[>] (0:ℝ)) := by
  rw [tendsto_nhdsWithin_iff]
  constructor
  · have h := (Real.continuous_sqrt.tendsto 0).mono_left
      (nhdsWithin_le_nhds (s := Set.Ioi (0:ℝ)))
    simpa [Real.sqrt_zero] using h
  · filter_upwards [self_mem_nhdsWithin] with x hx
    exact Set.mem_Ioi.mpr (Real.sqrt_pos.mpr hx)

lemma sqrt_neg_tendsto :
    Tendsto (fun K : ℝ => Real.sqrt (-K)) (𝓝[<] (0:ℝ)) (𝓝[>] (0:ℝ)) := by
  have hneg : Tendsto (fun K : ℝ => -K) (𝓝[<] (0:ℝ)) (𝓝[>] (0:ℝ)) := by
    rw [tendsto_nhdsWithin_iff]
    constructor
    · have h := (continuous_neg.tendsto (0:ℝ)).mono_left
        (nhdsWithin_le_nhds (s := Set.Iio (0:ℝ)))
      simpa using h
    · filter_upwards [self_mem_nhdsWithin] with x hx
      exact Set.mem_Ioi.mpr (by simpa using hx)
  exact sqrt_tendsto_pos.comp hneg

lemma tendsto_ne_of_sides {f : ℝ → ℝ} {l : ℝ}
    (hn : Tendsto f (𝓝[<] (0:ℝ)) (𝓝 l))
    (hp : Tendsto f (𝓝[>] (0:ℝ)) (𝓝 l)) :
    Tendsto f (𝓝[≠] (0:ℝ)) (𝓝 l) := by
  have hsplit : (𝓝[≠] (0:ℝ)) = 𝓝[<] (0:ℝ) ⊔ 𝓝[>] (0:ℝ) := by
    rw [← nhdsWithin_union, Set.Iio_union_Ioi]
  rw [hsplit, tendsto_sup]
  exact ⟨hn, hp⟩

lemma tendsto_nhds_of_punctured {f : ℝ → ℝ} {l : ℝ}
    (h : Tendsto f (𝓝[≠] (0:ℝ)) (𝓝 l)) (h0 : f 0 = l) :
    Tendsto f (𝓝 (0:ℝ)) (𝓝 l) := by
  rw [← nhdsWithin_compl_singleton_sup_pure (0:ℝ), tendsto_sup]
  exact ⟨h, h0 ▸ tendsto_pure_nhds f 0⟩

lemma SfunK_pos (L : ℝ) :
    Tendsto (fun K => Sfun K L) (𝓝[>] (0:ℝ)) (𝓝 L) := by
  refine Tendsto.congr' ?_ ((sin_div_lim L).comp sqrt_tendsto_pos)
  filter_upwards [self_mem_nhdsWithin] with K hK
  simp only [Function.comp_apply]
  rw [Sfun_of_pos L hK]

lemma SfunK_neg (L : ℝ) :
    Tendsto (fun K => Sfun K L) (𝓝[<] (0:ℝ)) (𝓝 L) := by
  refine Tendsto.congr' ?_ ((sinh_div_lim L).comp sqrt_neg_tendsto)
  filter_upwards [self_mem_nhdsWithin] with K hK
  simp only [Function.comp_apply]
  rw [Sfun_of_neg L hK]

lemma SfunK_tendsto (L : ℝ) :
    Tendsto (fun K => Sfun K L) (𝓝 (0:ℝ)) (𝓝 L) :=
  tendsto_nhds_of_punctured (tendsto_ne_of_sides (SfunK_neg L) (SfunK_pos L))
    (Sfun_zero L)

lemma CfunK_pos (L : ℝ) :
    Tendsto (fun K => Cfun K L) (𝓝[>] (0:ℝ)) (𝓝 1) := by
  have hcos : Tendsto (fun u : ℝ => Real.cos (u * L)) (𝓝[>] (0:ℝ)) (𝓝 1) := by
    have hc : Continuous fun u : ℝ => Real.cos (u * L) := by continuity
    have h := (hc.tendsto (0:ℝ)).mono_left
      (nhdsWithin_le_nhds (s := Set.Ioi (0:ℝ)))
    simpa using h
  refine Tendsto.congr' ?_ (hcos.comp sqrt_tendsto_pos)
  filter_upwards [self_mem_nhdsWithin] with K hK
  simp only [Function.comp_apply]
  rw [Cfun_of_pos L hK]

lemma CfunK_neg (L : ℝ) :
    Tendsto (fun K => Cfun K L) (𝓝[<] (0:ℝ)) (𝓝 1) := by
  have hcosh : Tendsto (fun u : ℝ => Real.cosh (u * L)) (𝓝[>] (0:ℝ)) (𝓝 1) := by
    have hc : Continuous fun u : ℝ => Real.cosh (u * L) := by continuity
    have h := (hc.tendsto (0:ℝ)).mono_left
      (nhdsWithin_le_nhds (s := Set.Ioi (0:ℝ)))
    simpa using h
  refine Tendsto.congr' ?_ (hcosh.comp sqrt_neg_tendsto)
  filter_upwards [self_mem_nhdsWithin] with K hK
  simp only [Function.comp_apply]
  rw [Cfun_of_neg L hK]

lemma CfunK_tendsto (L : ℝ) :
    Tendsto (fun K => Cfun K L) (𝓝 (0:ℝ)) (𝓝 1) :=
  tendsto_nhds_of_punctured (tendsto_ne_of_sides (CfunK_neg L) (CfunK_pos L))
    (Cfun_zero L)

lemma Cfun_ratio_pos (L : ℝ) :
    Tendsto (fun K => (Cfun K L - 1) / K) (𝓝[>] (0:ℝ)) (𝓝 (-(L ^ 2 / 2))) := by
  refine Tendsto.congr' ?_ ((cos_sq_lim L).comp sqrt_tendsto_pos)
  filter_upwards [self_mem_nhdsWithin] with K hK
  simp only [Function.comp_apply]
  rw [Cfun_of_pos L hK, Real.sq_sqrt hK.le]

lemma Cfun_ratio_neg (L : ℝ) :
    Tendsto (fun K => (Cfun K L - 1) / K) (𝓝[<] (0:ℝ)) (𝓝 (-(L ^ 2 / 2))) := by
  refine Tendsto.congr' ?_ ((cosh_sq_lim L).comp sqrt_neg_tendsto).neg
  filter_upwards [self_mem_nhdsWithin] with K hK
  simp only [Function.comp_apply]
  rw [Cfun_of_neg L hK, Real.sq_sqrt (neg_nonneg.mpr hK.le), div_neg, neg_neg]

lemma Cfun_ratio_tendsto (L : ℝ) :
    Tendsto (fun K => (Cfun K L - 1) / K) (𝓝[≠] (0:ℝ)) (𝓝 (-(L ^ 2 / 2))) :=
  tendsto_ne_of_sides (Cfun_ratio_neg L) (Cfun_ratio_pos L)

lemma Sfun_ratio_pos (L : ℝ) :
    Tendsto (fun K => (Sfun K L - L) / K) (𝓝[>] (0:ℝ)) (𝓝 (-(L ^ 3 / 6))) := by
  refine Tendsto.congr' ?_ ((sin_cube_lim L).comp sqrt_tendsto_pos)
  filter_upwards [self_mem_nhdsWithin] with K hK
  simp only [Function.comp_apply]
  rw [Sfun_of_pos L hK]
  set s := Real.sqrt K with hs_def
  have hs0 : s ≠ 0 := ne_of_gt (Real.sqrt_pos.mpr hK)
  have hK2 : s ^ 2 = K := Real.sq_sqrt hK.le
  rw [← hK2, div_sub' _ _ _ hs0, div_div, ← pow_succ' s 2]

lemma Sfun_ratio_neg (L : ℝ) :
    Tendsto (fun K => (Sfun K L - L) / K) (𝓝[<] (0:ℝ)) (𝓝 (-(L ^ 3 / 6))) := by
  have h := ((sinh_cube_lim L).comp sqrt_neg_tendsto).neg
  rw [show -(L ^ 3 / 6) = -(L ^ 3 / 6) from rfl] at h
  refine Tendsto.congr' ?_ h
  filter_upwards [self_mem_nhdsWithin] with K hK
  simp only [Function.comp_apply]
  rw [Sfun_of_neg L hK]
  set s := Real.sqrt (-K) with hs_def
  have hs0 : s ≠ 0 := ne_of_gt (Real.sqrt_pos.mpr (by simpa using hK))
  have hK2 : s ^ 2 = -K := Real.sq_sqrt (neg_nonneg.mpr hK.le)
  have hK3 : K = -s ^ 2 := by rw [hK2]; ring
  rw [hK3, div_neg, div_sub' _ _ _ hs0, div_div, ← pow_succ' s 2]

lemma Sfun_ratio_tendsto (L : ℝ) :
    Tendsto (fun K => (Sfun K L - L) / K) (𝓝[≠] (0:ℝ)) (𝓝 (-(L ^ 3 / 6))) :=
  tendsto_ne_of_sides (Sfun_ratio_neg L) (Sfun_ratio_pos L)

lemma double_tendsto_pos :
    Tendsto (fun u : ℝ => 2 * u) (𝓝[>] (0:ℝ)) (𝓝[>] (0:ℝ)) := by
  rw [tendsto_nhdsWithin_iff]
  constructor
  · have hc : Continuous fun u : ℝ => 2 * u := by continuity
    have h := (hc.tendsto (0:ℝ)).mono_left
      (nhdsWithin_le_nhds (s := Set.Ioi (0:ℝ)))
    simpa using h
  · filter_upwards [self_mem_nhdsWithin] with u hu
    exact Set.mem_Ioi.mpr (mul_pos two_pos (Set.mem_Ioi.mp hu))

lemma CSu_pos (L : ℝ) :
    Tendsto (fun u => (L - Real.cos (u * L) * (Real.sin (u * L) / u)) / u ^ 2)
      (𝓝[>] (0:ℝ)) (𝓝 (2 * L ^ 3 / 3)) := by
  have h1 := (sin_cube_lim L).comp double_tendsto_pos
  have h2 := h1.const_mul (-4 : ℝ)
  rw [show (-4 : ℝ) * -(L ^ 3 / 6) = 2 * L ^ 3 / 3 by ring] at h2
  refine Tendsto.congr' ?_ h2
  filter_upwards [self_mem_nhdsWithin] with u hu
  have hu0 : u ≠ 0 := ne_of_gt hu
  simp only [Function.comp_apply]
  have hsc : Real.sin (2 * u * L) = 2 * Real.sin (u * L) * Real.cos (u * L) := by
    rw [show 2 * u * L = 2 * (u * L) by ring, Real.sin_two_mul]
  rw [hsc]
  field_simp
  ring

lemma CSu_neg (L : ℝ) :
    Tendsto (fun u => (L - Real.cosh (u * L) * (Real.sinh (u * L) / u)) / u ^ 2)
      (𝓝[>] (0:ℝ)) (𝓝 (-(2 * L ^ 3 / 3))) := by
  have h1 := (sinh_cube_lim L).comp double_tendsto_pos
  have h2 := h1.const_mul (-4 : ℝ)
  rw [show (-4 : ℝ) * (L ^ 3 / 6) = -(2 * L ^ 3 / 3) by ring] at h2
  refine Tendsto.congr' ?_ h2
  filter_upwards [self_mem_nhdsWithin] with u hu
  have hu0 : u ≠ 0 := ne_of_gt hu
  simp only [Function.comp_apply]
  have hsc : Real.sinh (2 * u * L)
      = 2 * Real.sinh (u * L) * Real.cosh (u * L) := by
    rw [show 2 * u * L = 2 * (u * L) by ring, Real.sinh_two_mul]
  rw [hsc]
  field_simp
  ring

lemma CS_ratio_pos (L : ℝ) :
    Tendsto (fun K => (L - Cfun K L * Sfun K L) / K) (𝓝[>] (0:ℝ))
      (𝓝 (2 * L ^ 3 / 3)) := by
  refine Tendsto.congr' ?_ ((CSu_pos L).comp sqrt_tendsto_pos)
  filter_upwards [self_mem_nhdsWithin] with K hK
  simp only [Function.comp_apply]
  rw [Cfun_of_pos L hK, Sfun_of_pos L hK, Real.sq_sqrt hK.le]

lemma CS_ratio_neg (L : ℝ) :
    Tendsto (fun K => (L - Cfun K L * Sfun K L) / K) (𝓝[<] (0:ℝ))
      (𝓝 (2 * L ^ 3 / 3)) := by
  have h := ((CSu_neg L).comp sqrt_neg_tendsto).neg
  rw [neg_neg] at h
  refine Tendsto.congr' ?_ h
  filter_upwards [self_mem_nhdsWithin] with K hK
  simp only [Function.comp_apply]
  rw [Cfun_of_neg L hK, Sfun_of_neg L hK, Real.sq_sqrt (neg_nonneg.mpr hK.le),
    div_neg, neg_neg]

lemma CS_ratio_tendsto (L : ℝ) :
    Tendsto (fun K => (L - Cfun K L * Sfun K L) / K) (𝓝[≠] (0:ℝ))
      (𝓝 (2 * L ^ 3 / 3)) :=
  tendsto_ne_of_sides (CS_ratio_neg L) (CS_ratio_pos L)

lemma Csq_ratio_pos (L : ℝ) :
    Tendsto (fun K => (1 - Cfun K L ^ 2) / K) (𝓝[>] (0:ℝ)) (𝓝 (L ^ 2)) := by
  have h1 := (sin_div_lim L).pow 2
  refine Tendsto.congr' ?_ (h1.comp sqrt_tendsto_pos)
  filter_upwards [self_mem_nhdsWithin] with K hK
  simp only [Function.comp_apply]
  rw [Cfun_of_pos L hK]
  set s := Real.sqrt K with hs_def
  have hK2 : s ^ 2 = K := Real.sq_sqrt hK.le
  have hpyth : Real.sin (s * L) ^ 2 = 1 - Real.cos (s * L) ^ 2 := by
    linear_combination Real.sin_sq_add_cos_sq (s * L)
  rw [← hK2, div_pow, hpyth]

lemma Csq_ratio_neg (L : ℝ) :
    Tendsto (fun K => (1 - Cfun K L ^ 2) / K) (𝓝[<] (0:ℝ)) (𝓝 (L ^ 2)) := by
  have h1 := (sinh_div_lim L).pow 2
  refine Tendsto.congr' ?_ (h1.comp sqrt_neg_tendsto)
  filter_upwards [self_mem_nhdsWithin] with K hK
  simp only [Function.comp_apply]
  rw [Cfun_of_neg L hK]
  set s := Real.sqrt (-K) with hs_def
  have hK2 : s ^ 2 = -K := Real.sq_sqrt (neg_nonneg.mpr hK.le)
  have hK3 : K = -s ^ 2 := by rw [hK2]; ring
  have hpyth : Real.sinh (s * L) ^ 2 = Real.cosh (s * L) ^ 2 - 1 := by
    linear_combination -Real.cosh_sq_sub_sinh_sq (s * L)
  rw [hK3, div_pow, hpyth, div_neg, ← neg_div, neg_sub]

lemma Csq_ratio_tendsto (L : ℝ) :
    Tendsto (fun K => (1 - Cfun K L ^ 2) / K) (𝓝[≠] (0:ℝ)) (𝓝 (L ^ 2)) :=
  tendsto_ne_of_sides (Csq_ratio_neg L) (Csq_ratio_pos L)

lemma poscorrK_tendsto (g L : ℝ) :
    Tendsto (fun K => poscorrK g L K) (𝓝[≠] (0:ℝ)) (𝓝 (-(g * L ^ 2 / 2))) := by
  have h := (Cfun_ratio_tendsto L).const_mul g
  rw [show g * -(L ^ 2 / 2) = -(g * L ^ 2 / 2) by ring] at h
  refine Tendsto.congr' (Eventually.of_forall fun K => ?_) h
  simp only [poscorrK, mul_div_assoc]

lemma curvK_tendsto (h k0e x xp L : ℝ) :
    Tendsto (curvK h k0e x xp L) (𝓝[≠] (0:ℝ))
      (𝓝 (h * L * (3 * L * xp + 6 * x - (k0e - h) * L ^ 2) / 6)) := by
  have hS := (SfunK_tendsto L).mono_left (nhdsWithin_le_nhds (s := {(0:ℝ)}ᶜ))
  have h3 := Cfun_ratio_tendsto L
  have h6 := Sfun_ratio_tendsto L
  have hE := (((h3.const_mul xp).add (h6.const_mul (h - k0e))).sub
    (hS.const_mul x)).const_mul (-h)
  rw [show -h * (xp * -(L ^ 2 / 2) + (h - k0e) * -(L ^ 3 / 6) - x * L)
      = h * L * (3 * L * xp + 6 * x - (k0e - h) * L ^ 2) / 6 by ring] at hE
  refine Tendsto.congr' ?_ hE
  filter_upwards [self_mem_nhdsWithin] with K hK
  have hK0 : K ≠ 0 := Set.mem_compl_singleton_iff.mp hK
  simp only [curvK]
  field_simp
  ring_nf
  try tauto

lemma crossK_tendsto (x B a0 L : ℝ) :
    Tendsto (crossK x B a0 L) (𝓝[≠] (0:ℝ))
      (𝓝 (0.5 * B ^ 2 * L + 0.5 * (a0 ^ 2 * L ^ 3 / 3 + a0 * B * L ^ 2))) := by
  have hS := (SfunK_tendsto L).mono_left (nhdsWithin_le_nhds (s := {(0:ℝ)}ᶜ))
  have hC := (CfunK_tendsto L).mono_left (nhdsWithin_le_nhds (s := {(0:ℝ)}ᶜ))
  have h4 := CS_ratio_tendsto L
  have h5 := Csq_ratio_tendsto L
  have hA : Tendsto (fun K : ℝ => -K * x + a0) (𝓝[≠] (0:ℝ)) (𝓝 a0) := by
    have hc : Continuous fun K : ℝ => -K * x + a0 := by continuity
    have h := (hc.tendsto (0:ℝ)).mono_left (nhdsWithin_le_nhds (s := {(0:ℝ)}ᶜ))
    simpa using h
  have hCS := hC.mul hS
  have hE := (Tendsto.add
    (Tendsto.add (((hA.pow 2).mul h4).div_const 2)
      (((hCS.add_const L).const_mul (B ^ 2)).div_const 2))
    ((hA.mul_const B).mul h5)).const_mul (0.5 : ℝ)
  rw [show (0.5 : ℝ) * (a0 ^ 2 * (2 * L ^ 3 / 3) / 2 + B ^ 2 * (1 * L + L) / 2
      + a0 * B * L ^ 2)
      = 0.5 * B ^ 2 * L + 0.5 * (a0 ^ 2 * L ^ 3 / 3 + a0 * B * L ^ 2) by
    ring] at hE
  refine Tendsto.congr' ?_ hE
  filter_upwards [self_mem_nhdsWithin] with K hK
  have hK0 : K ≠ 0 := Set.mem_compl_singleton_iff.mp hK
  simp only [crossK]
  field_simp
  ring

lemma xNewK_tendsto (x xp g L : ℝ) :
    Tendsto (xNewK x xp g L) (𝓝 (0:ℝ)) (𝓝 (x + xp * L - g * 0.5 * L ^ 2)) := by
  apply tendsto_nhds_of_punctured
  · have hC := (CfunK_tendsto L).mono_left (nhdsWithin_le_nhds (s := {(0:ℝ)}ᶜ))
    have hS := (SfunK_tendsto L).mono_left (nhdsWithin_le_nhds (s := {(0:ℝ)}ᶜ))
    have h3 := Cfun_ratio_tendsto L
    have hE := ((hC.const_mul x).add (hS.const_mul xp)).add (h3.const_mul g)
    rw [show x * 1 + xp * L + g * -(L ^ 2 / 2)
        = x + xp * L - g * 0.5 * L ^ 2 by
      rw [show (0.5 : ℝ) = 1 / 2 by norm_num]; ring] at hE
    refine Tendsto.congr' ?_ hE
    filter_upwards [self_mem_nhdsWithin] with K hK
    have hK0 : K ≠ 0 := Set.mem_compl_singleton_iff.mp hK
    simp only [xNewK, if_pos (ne_iff_lt_or_gt.mp hK0), mul_div_assoc]
  · have hc : ¬((0:ℝ) < 0 ∨ (0:ℝ) > 0) := by simp
    simp only [xNewK, if_neg hc, Sfun_zero, Cfun_zero]
    ring

lemma pxNewK_tendsto (x B a0 dp1 L : ℝ) :
    Tendsto (pxNewK x B a0 dp1 L) (𝓝 (0:ℝ)) (𝓝 ((a0 * L + B) * dp1)) := by
  have hA : Tendsto (fun K : ℝ => -K * x + a0) (𝓝 (0:ℝ)) (𝓝 a0) := by
    have hc : Continuous fun K : ℝ => -K * x + a0 := by continuity
    simpa using hc.tendsto (0:ℝ)
  have hE := ((hA.mul (SfunK_tendsto L)).add
    ((CfunK_tendsto L).const_mul B)).mul_const dp1
  rw [show (a0 * L + B * 1) * dp1 = (a0 * L + B) * dp1 by ring] at hE
  refine Tendsto.congr' (Eventually.of_forall fun K => ?_) hE
  simp only [pxNewK]

/-- C3 (counterexample): the `NONZERO(Kx)` second-order cross term of the
path length, read as a function of `Kx` with drive offset `a0 = h - k0_eff =
1`, `x = 0`, `B = 0` and `length = 1`, does not tend to the `Kx == 0` form
`0.5 * B^2 * length = 0` as `Kx` tends to 0: its limit is `1/6`.  Hence the
claim's assertion that the cross term tends to the zero-branch form (and that
every output of the map is continuous at `Kx = 0`) is false. -/
theorem C3_continuity_counterexample :
    ¬ Tendsto (fun K => crossK 0 0 1 1 K) (𝓝[≠] (0:ℝ))
      (𝓝 (0.5 * 0 ^ 2 * 1)) := by
  intro hcon
  have htrue := crossK_tendsto 0 0 1 1
  have hsub : Set.Ioi (0:ℝ) ⊆ {(0:ℝ)}ᶜ :=
    fun x hx => Set.mem_compl_singleton_iff.mpr (ne_of_gt hx)
  have h1 := hcon.mono_left (nhdsWithin_mono (0:ℝ) hsub)
  have h2 := htrue.mono_left (nhdsWithin_mono (0:ℝ) hsub)
  have heq := tendsto_nhds_unique h1 h2
  norm_num at heq

/-- C3 (amended): as `K → 0` (from above or below), `S → length` and
`C → 1`; the horizontal position correction `(k0_eff - h)(Cx - 1)/Kx` tends
to `-(k0_eff - h) length^2/2`; the `Kx ≠ 0` curvature term of the path length
tends to the cubic polynomial of the `Kx == 0` branch; but the `NONZERO`
second-order cross term (drive `-K x + a0`, where `a0 = h - k0_eff`
horizontally and `a0 = 0` vertically) tends to
`0.5 B^2 length + 0.5 (a0^2 length^3/3 + a0 B length^2)`, which equals the
`K == 0` form `0.5 B^2 length` only when `a0 = 0` — so the vertical cross
term and all four transverse outputs are continuous at `K = 0`, while the
horizontal cross term (hence the path length and the `zeta` increment) is
continuous at `Kx = 0` only when `k0_eff = h`. -/
theorem C3_zero_branch_limits :
    (∀ L : ℝ, Tendsto (fun K => Sfun K L) (𝓝 (0:ℝ)) (𝓝 L)) ∧
    (∀ L : ℝ, Tendsto (fun K => Cfun K L) (𝓝 (0:ℝ)) (𝓝 1)) ∧
    (∀ g L : ℝ, Tendsto (fun K => poscorrK g L K) (𝓝[≠] (0:ℝ))
      (𝓝 (-(g * L ^ 2 / 2)))) ∧
    (∀ h k0e x xp L : ℝ, Tendsto (curvK h k0e x xp L) (𝓝[≠] (0:ℝ))
      (𝓝 (h * L * (3 * L * xp + 6 * x - (k0e - h) * L ^ 2) / 6))) ∧
    (∀ x B a0 L : ℝ, Tendsto (crossK x B a0 L) (𝓝[≠] (0:ℝ))
      (𝓝 (0.5 * B ^ 2 * L + 0.5 * (a0 ^ 2 * L ^ 3 / 3 + a0 * B * L ^ 2)))) ∧
    (∀ x xp g L : ℝ, Tendsto (xNewK x xp g L) (𝓝 (0:ℝ))
      (𝓝 (x + xp * L - g * 0.5 * L ^ 2))) ∧
    (∀ x B a0 dp1 L : ℝ, Tendsto (pxNewK x B a0 dp1 L) (𝓝 (0:ℝ))
      (𝓝 ((a0 * L + B) * dp1))) :=
  ⟨SfunK_tendsto, CfunK_tendsto, poscorrK_tendsto, curvK_tendsto,
    crossK_tendsto, xNewK_tendsto, pxNewK_tendsto⟩

end Xt
